import Mathlib

/-!
Verification development for the folder-hierarchy subsystem of a note-taking
backend (folder create / update / delete handlers over a relational store).

The database is embedded shallowly: the folders table is a `List Folder`, the
notes table a `List Note`; `findById` mirrors a `SELECT ... WHERE id = ?`
returning the first matching row.  Handlers are state-passing functions that
return the operation result together with the store as it stands when the
handler finishes (on a validation error the handler throws before any write,
so the store is returned unchanged, exactly as in the source).  Timestamps are
abstracted to `Nat` and `new Date()` to an explicit `now` parameter; id
generation (`crypto.randomUUID`) is an explicit `newId` parameter.
-/

namespace ZeNotes

/-- A row of the `folders` table (db/schema.ts `foldersTable`). -/
structure Folder where
  id : String
  name : String
  user_id : String
  parent_folder_id : Option String
  created_at : Nat
  updated_at : Nat
deriving Repr, DecidableEq

/-- A row of the `notes` table (db/schema.ts `notesTable`); only the columns
the folder subsystem touches are carried. -/
structure Note where
  id : String
  title : String
  content : String
  user_id : String
  folder_id : Option String
deriving Repr, DecidableEq

/-- `SELECT * FROM folders WHERE id = ?` returning the first row. -/
def findById (s : List Folder) (i : String) : Option Folder :=
  s.find? (fun f => f.id == i)

/-- The ids column of the store. -/
def storeIds (s : List Folder) : List String := s.map (fun f => f.id)

/-- Input of the deleteFolder handler (schema.ts `deleteFolderInputSchema`). -/
structure DeleteFolderInput where
  id : String
  user_id : String
deriving Repr, DecidableEq

/-- The note-reassignment write of deleteFolder (delete_folder.ts lines 24-27):
every note whose `folder_id` equals the deleted id is moved to the deleted
folder's parent. -/
def reassignNote (delId : String) (newParent : Option String) (n : Note) : Note :=
  if n.folder_id == some delId then { n with folder_id := newParent } else n

/-- The subfolder-reassignment write of deleteFolder (delete_folder.ts lines
30-33): every folder whose parent equals the deleted id is moved to the
deleted folder's parent. -/
def reassignFolder (delId : String) (newParent : Option String) (f : Folder) : Folder :=
  if f.parent_folder_id == some delId then { f with parent_folder_id := newParent } else f

/-- deleteFolder (handlers/delete_folder.ts): look the folder up by id and
owner, throw the combined not-found/access-denied error when absent, otherwise
reassign notes, reassign subfolders, delete the row, in that order.  Returns
the result together with the folders and notes tables after the handler. -/
def deleteFolder (s : List Folder) (notes : List Note) (inp : DeleteFolderInput) :
    Except String Unit × List Folder × List Note :=
  match s.find? (fun f => f.id == inp.id && f.user_id == inp.user_id) with
  | none => (.error "Folder not found or access denied", s, notes)
  | some folderToDelete =>
    let notes1 := notes.map (reassignNote inp.id folderToDelete.parent_folder_id)
    let s1 := s.map (reassignFolder inp.id folderToDelete.parent_folder_id)
    let s2 := s1.filter (fun f => !(f.id == inp.id && f.user_id == inp.user_id))
    (.ok (), s2, notes1)

/-- The state of the two tables after only the first `k` of deleteFolder's
three sequential writes have executed (the source issues them as three
separate statements with no surrounding transaction, so an execution may halt
between them): k = 1 after the note reassignment, k = 2 after the subfolder
reassignment, k = 3 after the row deletion. -/
def deleteFolderAfterSteps (s : List Folder) (notes : List Note)
    (inp : DeleteFolderInput) (k : Nat) : List Folder × List Note :=
  match s.find? (fun f => f.id == inp.id && f.user_id == inp.user_id) with
  | none => (s, notes)
  | some folderToDelete =>
    let notes1 := if 1 ≤ k then notes.map (reassignNote inp.id folderToDelete.parent_folder_id)
      else notes
    let s1 := if 2 ≤ k then s.map (reassignFolder inp.id folderToDelete.parent_folder_id)
      else s
    let s2 := if 3 ≤ k then s1.filter (fun f => !(f.id == inp.id && f.user_id == inp.user_id))
      else s1
    (s2, notes1)

/-- Input of the updateFolder handler (schema.ts `updateFolderInputSchema`).
`name` is optional; `parent_folder_id` is optional *and* nullable, so it is an
`Option (Option String)`: `none` = field absent, `some none` = explicit null
(move to root), `some (some p)` = explicit parent. -/
structure UpdateFolderInput where
  id : String
  name : Option String
  parent_folder_id : Option (Option String)
deriving Repr, DecidableEq

/-- One iteration of the `while (currentParentId !== null)` loop of
`validateNoCircularReference` (update_folder.ts lines 63-88), written with
explicit fuel; `none` means the fuel ran out (a sufficiency proof below shows
fuel `s.length + 1` never does).  The returned `Nat` counts the folder lookups
(`db.select` calls) the walk performed. -/
def ancestorWalk (s : List Folder) (folderId : String) :
    Nat → String → List String → Option (Except String Unit × Nat)
  | 0, _, _ => none
  | fuel+1, current, visited =>
    if visited.contains current then
      some (.error "Circular reference detected in folder hierarchy", 0)
    else if current == folderId then
      some (.error "Cannot create circular reference in folder hierarchy", 0)
    else
      match findById s current with
      | none => some (.error "Parent folder not found", 1)
      | some f =>
        match f.parent_folder_id with
        | none => some (.ok (), 1)
        | some p =>
          (ancestorWalk s folderId fuel p (current :: visited)).map
            (fun r => (r.1, r.2 + 1))

/-- `validateNoCircularReference` (update_folder.ts lines 53-89): reject a
direct self-parent, then walk the ancestor chain from the proposed parent.
The fuel `s.length + 1` is proved sufficient (`ancestorWalk_isSome`), so the
fuel-exhaustion default branch is unreachable. -/
def validateNoCircularReference (s : List Folder) (folderId newParentId : String) :
    Except String Unit :=
  if folderId == newParentId then
    .error "Cannot set folder as its own parent"
  else
    match ancestorWalk s folderId (s.length + 1) newParentId [] with
    | some r => r.1
    | none => .error "Circular reference detected in folder hierarchy"

/-- The row update updateFolder applies (update_folder.ts lines 26-43): set
`name` and `parent_folder_id` only when the input provides them, always
refresh `updated_at`. -/
def applyFolderUpdate (inp : UpdateFolderInput) (now : Nat) (f : Folder) : Folder :=
  { f with
    name := inp.name.getD f.name
    parent_folder_id := inp.parent_folder_id.getD f.parent_folder_id
    updated_at := now }

/-- The `UPDATE folders SET ... WHERE id = input.id` write as a row function:
rows with the target id receive the update, all others are untouched. -/
def updRow (inp : UpdateFolderInput) (now : Nat) (f : Folder) : Folder :=
  if f.id == inp.id then applyFolderUpdate inp now f else f

/-- updateFolder (handlers/update_folder.ts): load the folder by id (not by
owner — the input carries no user id), run the circular-reference validation
when a non-null parent is provided, then apply the provided fields.  Returns
the result (the updated row, as `returning()` does) and the folders table
after the handler. -/
def updateFolder (s : List Folder) (now : Nat) (inp : UpdateFolderInput) :
    Except String Folder × List Folder :=
  match findById s inp.id with
  | none => (.error "Folder not found", s)
  | some currentFolder =>
    match (match inp.parent_folder_id with
           | some (some p) => validateNoCircularReference s inp.id p
           | _ => Except.ok ()) with
    | .error e => (.error e, s)
    | .ok _ =>
      (.ok (applyFolderUpdate inp now currentFolder), s.map (updRow inp now))

/-- Input of the createFolder handler (schema.ts `createFolderInputSchema`). -/
structure CreateFolderInput where
  name : String
  user_id : String
  parent_folder_id : Option String
deriving Repr, DecidableEq

/-- createFolder (handlers/create_folder.ts) as shipped: the handler is a
placeholder whose own comment says real code should validate the owner and
the parent, but as written it performs no check and no database write.  It
resolves with a fabricated row — id from `crypto.randomUUID` (here the
explicit `newId`), `parent_folder_id: input.parent_folder_id || null` where
the JavaScript `||` turns an absent, null or empty-string parent into null —
and leaves the folders table untouched. -/
def createFolder (s : List Folder) (inp : CreateFolderInput) (newId : String)
    (now : Nat) : Except String Folder × List Folder :=
  (.ok { id := newId, name := inp.name, user_id := inp.user_id
         parent_folder_id :=
           match inp.parent_folder_id with
           | some p => if p = "" then none else some p
           | none => none
         created_at := now, updated_at := now }, s)

/-! ### The parent graph and its ancestor chains

The hierarchy properties of the spec are phrased over the parent graph of the
store: `parentView s i` is the parent column of row `i` (`none` when the row
is absent, `some none` when the row is a root).  `chainToF` computes the
ancestor chain of an id — the ids visited by repeatedly following `parent`
until a root — with explicit fuel (`none` = the chain did not reach a root
within the fuel, because of a cycle, a dangling reference, or short fuel). -/

/-- The parent column of row `i`, `none` when no row has id `i`. -/
def parentView (s : List Folder) (i : String) : Option (Option String) :=
  (findById s i).map (fun f => f.parent_folder_id)

/-- Ancestor chain of `i` under parent map `pm`, fuel-bounded: the list of ids
from `i` up to and including the root, or `none` when no root is reached
within `fuel` steps. -/
def chainToF (pm : String → Option (Option String)) : Nat → String → Option (List String)
  | 0, _ => none
  | fuel+1, i =>
    match pm i with
    | none => none
    | some none => some [i]
    | some (some p) => (chainToF pm fuel p).map (fun l => i :: l)

/-- Ancestor chain of `i` in store `s`. -/
def chainTo (s : List Folder) (fuel : Nat) (i : String) : Option (List String) :=
  chainToF (parentView s) fuel i

/-- Acyclicity with the bound taken over all folders of the store: from every
folder, following `parent` links reaches a root in at most as many steps as
the store has folders. -/
def Acyclic (s : List Folder) : Prop :=
  ∀ f ∈ s, (chainTo s s.length f.id).isSome = true

/-- Acyclicity with the per-user bound of the spec: from every folder,
following `parent` links reaches a root in at most as many steps as that
folder's owner has folders. -/
def AcyclicPerUser (s : List Folder) : Prop :=
  ∀ f ∈ s, (chainTo s (s.filter (fun g => g.user_id == f.user_id)).length f.id).isSome = true

instance : DecidablePred Acyclic := fun s =>
  inferInstanceAs (Decidable (∀ f ∈ s, _))

instance : DecidablePred AcyclicPerUser := fun s =>
  inferInstanceAs (Decidable (∀ f ∈ s, _))

/-- The ancestor walk of `validateNoCircularReference`, started at `i` with
visited set `vis`, runs into a dangling parent reference: every id on the way
passes the visited and self checks and resolves, until an id fails to
resolve. -/
inductive WalkDangles (s : List Folder) (folderId : String) : String → List String → Prop
  | dangle (i : String) (vis : List String) :
      i ∉ vis → i ≠ folderId → findById s i = none → WalkDangles s folderId i vis
  | step (i : String) (vis : List String) (f : Folder) (p : String) :
      i ∉ vis → i ≠ folderId → findById s i = some f → f.parent_folder_id = some p →
      WalkDangles s folderId p (i :: vis) → WalkDangles s folderId i vis

/-- Termination measure of the ancestor walk: the ids of the store not yet
visited and different from the folder being updated (the walk looks an id up
only after it passes the visited check and the self check). -/
def walkMeasure (s : List Folder) (folderId : String) (vis : List String) : Nat :=
  ((storeIds s).filter (fun i => !(vis.contains i) && i != folderId)).length

/-! ### Basic properties of ancestor chains -/

theorem chainToF_mono {pm : String → Option (Option String)} :
    ∀ {fuel : Nat} {i : String} {l : List String},
    chainToF pm fuel i = some l → chainToF pm (fuel + 1) i = some l := by
  intro fuel
  induction fuel with
  | zero => intro i l h; simp [chainToF] at h
  | succ n ih =>
    intro i l h
    rw [chainToF] at h ⊢
    cases hpm : pm i with
    | none => rw [hpm] at h; exact absurd h (by simp)
    | some par =>
      rw [hpm] at h
      cases par with
      | none => exact h
      | some p =>
        simp only [Option.map_eq_some'] at h ⊢
        obtain ⟨m, hm, rfl⟩ := h
        exact ⟨m, ih hm, rfl⟩

theorem chainToF_le {pm : String → Option (Option String)} {fuel fuel' : Nat}
    {i : String} {l : List String} (hle : fuel ≤ fuel')
    (h : chainToF pm fuel i = some l) : chainToF pm fuel' i = some l := by
  induction hle with
  | refl => exact h
  | step _ ih => exact chainToF_mono ih

theorem chainToF_unique {pm : String → Option (Option String)} {f1 f2 : Nat}
    {i : String} {l1 l2 : List String} (h1 : chainToF pm f1 i = some l1)
    (h2 : chainToF pm f2 i = some l2) : l1 = l2 := by
  have h1' := chainToF_le (Nat.le_max_left f1 f2) h1
  have h2' := chainToF_le (Nat.le_max_right f1 f2) h2
  rw [h1'] at h2'
  exact (Option.some.inj h2')

theorem chainToF_mem_isSome {pm : String → Option (Option String)} :
    ∀ {fuel : Nat} {i : String} {l : List String},
    chainToF pm fuel i = some l → ∀ j ∈ l, (pm j).isSome = true := by
  intro fuel
  induction fuel with
  | zero => intro i l h; simp [chainToF] at h
  | succ n ih =>
    intro i l h j hj
    rw [chainToF] at h
    cases hpm : pm i with
    | none => rw [hpm] at h; exact absurd h (by simp)
    | some par =>
      rw [hpm] at h
      cases par with
      | none =>
        obtain rfl : [i] = l := Option.some.inj h
        simp at hj
        subst hj
        simp [hpm]
      | some p =>
        simp only [Option.map_eq_some'] at h
        obtain ⟨m, hm, rfl⟩ := h
        rcases List.mem_cons.1 hj with rfl | hj'
        · simp [hpm]
        · exact ih hm j hj'

theorem chainToF_mem {pm : String → Option (Option String)} :
    ∀ {fuel : Nat} {i : String} {l : List String} {j : String},
    chainToF pm fuel i = some l → j ∈ l →
    ∃ fuel2 m, chainToF pm fuel2 j = some m ∧ m.length ≤ l.length := by
  intro fuel
  induction fuel with
  | zero => intro i l j h; simp [chainToF] at h
  | succ n ih =>
    intro i l j h hj
    rw [chainToF] at h
    cases hpm : pm i with
    | none => rw [hpm] at h; exact absurd h (by simp)
    | some par =>
      rw [hpm] at h
      cases par with
      | none =>
        obtain rfl : [i] = l := Option.some.inj h
        simp at hj
        subst hj
        exact ⟨n + 1, [j], by rw [chainToF, hpm], Nat.le_refl _⟩
      | some p =>
        simp only [Option.map_eq_some'] at h
        obtain ⟨m, hm, rfl⟩ := h
        rcases List.mem_cons.1 hj with rfl | hj'
        · exact ⟨n + 1, j :: m, by rw [chainToF, hpm]; simp [hm], Nat.le_refl _⟩
        · obtain ⟨f2, m2, hm2, hlen⟩ := ih hm hj'
          exact ⟨f2, m2, hm2, Nat.le_trans hlen (Nat.le_succ _)⟩

theorem chainToF_nodup {pm : String → Option (Option String)} :
    ∀ {fuel : Nat} {i : String} {l : List String},
    chainToF pm fuel i = some l → l.Nodup := by
  intro fuel
  induction fuel with
  | zero => intro i l h; simp [chainToF] at h
  | succ n ih =>
    intro i l h
    rw [chainToF] at h
    cases hpm : pm i with
    | none => rw [hpm] at h; exact absurd h (by simp)
    | some par =>
      rw [hpm] at h
      cases par with
      | none =>
        obtain rfl : [i] = l := Option.some.inj h
        simp
      | some p =>
        simp only [Option.map_eq_some'] at h
        obtain ⟨m, hm, rfl⟩ := h
        refine List.nodup_cons.2 ⟨?_, ih hm⟩
        intro hmem
        obtain ⟨f2, m2, hm2, hlen⟩ := chainToF_mem hm hmem
        have hfull : chainToF pm (n + 1) i = some (i :: m) := by
          simp [chainToF, hpm, hm]
        have : m2 = i :: m := chainToF_unique hm2 hfull
        subst this
        simp at hlen

theorem chainToF_minfuel {pm : String → Option (Option String)} :
    ∀ {fuel : Nat} {i : String} {l : List String},
    chainToF pm fuel i = some l → chainToF pm l.length i = some l := by
  intro fuel
  induction fuel with
  | zero => intro i l h; simp [chainToF] at h
  | succ n ih =>
    intro i l h
    rw [chainToF] at h
    cases hpm : pm i with
    | none => rw [hpm] at h; exact absurd h (by simp)
    | some par =>
      rw [hpm] at h
      cases par with
      | none =>
        obtain rfl : [i] = l := Option.some.inj h
        show chainToF pm (0 + 1) i = some [i]
        simp [chainToF, hpm]
      | some p =>
        simp only [Option.map_eq_some'] at h
        obtain ⟨m, hm, rfl⟩ := h
        have := ih hm
        show chainToF pm (m.length + 1) i = some (i :: m)
        simp [chainToF, hpm, this]

/-- If a chain exists under `pm` and `pm'` agrees with `pm` on every id of the
chain, the same chain exists under `pm'`. -/
theorem chainToF_congr_on {pm pm' : String → Option (Option String)} :
    ∀ {fuel : Nat} {i : String} {l : List String},
    chainToF pm fuel i = some l → (∀ j ∈ l, pm' j = pm j) →
    chainToF pm' fuel i = some l := by
  intro fuel
  induction fuel with
  | zero => intro i l h; simp [chainToF] at h
  | succ n ih =>
    intro i l h hagree
    rw [chainToF] at h
    cases hpm : pm i with
    | none => rw [hpm] at h; exact absurd h (by simp)
    | some par =>
      rw [hpm] at h
      cases par with
      | none =>
        obtain rfl : [i] = l := Option.some.inj h
        rw [chainToF, hagree i (by simp), hpm]
      | some p =>
        simp only [Option.map_eq_some'] at h
        obtain ⟨m, hm, rfl⟩ := h
        have hrec := ih hm (fun j hj => hagree j (List.mem_cons_of_mem _ hj))
        simp [chainToF, hagree i (by simp), hpm, hrec]

/-! ### Ancestor chains and the store -/

theorem findById_isSome_of_parentView {s : List Folder} {j : String}
    (h : (parentView s j).isSome = true) : ∃ f ∈ s, f.id = j := by
  rw [parentView, Option.isSome_map'] at h
  obtain ⟨f, hf, hp⟩ := List.find?_isSome.1 h
  exact ⟨f, hf, by simpa using hp⟩

theorem chainTo_mem_storeIds {s : List Folder} {fuel : Nat} {i : String}
    {l : List String} (h : chainTo s fuel i = some l) : ∀ j ∈ l, j ∈ storeIds s := by
  intro j hj
  obtain ⟨f, hf, rfl⟩ := findById_isSome_of_parentView (chainToF_mem_isSome h j hj)
  exact List.mem_map.2 ⟨f, hf, rfl⟩

theorem chainTo_length_le {s : List Folder} {fuel : Nat} {i : String}
    {l : List String} (h : chainTo s fuel i = some l) : l.length ≤ s.length := by
  have h1 : l.Nodup := chainToF_nodup h
  have h2 : l ⊆ storeIds s := fun j hj => chainTo_mem_storeIds h j hj
  have h3 := (List.subperm_of_subset h1 h2).length_le
  simpa [storeIds] using h3

/-- Any chain that exists at some fuel already exists at fuel `s.length`: the
chain's ids are distinct ids of the store, so the chain is no longer than the
store. -/
theorem chainTo_compress {s : List Folder} {fuel : Nat} {i : String}
    {l : List String} (h : chainTo s fuel i = some l) :
    chainTo s s.length i = some l :=
  chainToF_le (chainTo_length_le h) (chainToF_minfuel h)

/-! ### findById over the writes of the handlers -/

theorem findById_map {s : List Folder} {h : Folder → Folder}
    (hid : ∀ f, (h f).id = f.id) (i : String) :
    findById (s.map h) i = (findById s i).map h := by
  rw [findById, findById, List.find?_map]
  have hc : ((fun f : Folder => f.id == i) ∘ h) = (fun f : Folder => f.id == i) := by
    funext f
    simp [Function.comp, hid]
  rw [hc]

theorem findById_mem {s : List Folder} {i : String} {f : Folder}
    (h : findById s i = some f) : f ∈ s ∧ f.id = i := by
  refine ⟨List.mem_of_find?_eq_some h, ?_⟩
  simpa using List.find?_some h

/-- With unique ids, the row found by `findById` is the unique row with that
id: any member with that id is the one found. -/
theorem findById_of_mem {s : List Folder} {f : Folder}
    (hnd : (storeIds s).Nodup) (hf : f ∈ s) : findById s f.id = some f := by
  induction s with
  | nil => cases hf
  | cons g t ih =>
    have hnd2 : g.id ∉ storeIds t ∧ (storeIds t).Nodup := by simpa [storeIds] using hnd
    rcases List.mem_cons.1 hf with rfl | hft
    · simp [findById]
    · have hgne : ¬(g.id = f.id) := by
        intro he
        apply hnd2.1
        have hmem : f.id ∈ storeIds t := by
          simpa [storeIds] using List.mem_map_of_mem (fun x : Folder => x.id) hft
        rw [he]
        exact hmem
      rw [findById, List.find?_cons_of_neg _ (by simpa using hgne)]
      exact ih hnd2.2 hft

/-! ### Termination and lookup count of the ancestor walk -/

theorem walkMeasure_lt {s : List Folder} {folderId current : String} {vis : List String}
    (hcur : current ∈ storeIds s) (hvis : current ∉ vis) (hne : current ≠ folderId) :
    walkMeasure s folderId (current :: vis) < walkMeasure s folderId vis := by
  rw [walkMeasure, walkMeasure]
  have himp : ∀ i : String, (!((current :: vis).contains i) && i != folderId) = true →
      (!(vis.contains i) && i != folderId) = true := by
    intro i hi
    simp only [List.contains_cons, Bool.not_or, Bool.and_eq_true, Bool.not_eq_true'] at hi ⊢
    exact ⟨hi.1.2, hi.2⟩
  have hsub := List.monotone_filter_right (storeIds s) himp
  refine Nat.lt_of_le_of_ne hsub.length_le ?_
  intro heq
  have heqlist := hsub.eq_of_length heq
  have hmemr : current ∈ (storeIds s).filter (fun i => !(vis.contains i) && i != folderId) := by
    refine List.mem_filter.2 ⟨hcur, ?_⟩
    simp [hvis, hne]
  rw [← heqlist] at hmemr
  have hco := (List.mem_filter.1 hmemr).2
  simp at hco

theorem ancestorWalk_total {s : List Folder} {folderId : String} :
    ∀ {fuel : Nat} {current : String} {vis : List String},
    walkMeasure s folderId vis < fuel →
    ∃ r n, ancestorWalk s folderId fuel current vis = some (r, n) ∧
      n ≤ walkMeasure s folderId vis + 1 := by
  intro fuel
  induction fuel with
  | zero => intro current vis h; omega
  | succ m ih =>
    intro current vis h
    by_cases h1 : vis.contains current = true
    · exact ⟨.error "Circular reference detected in folder hierarchy", 0,
        by rw [ancestorWalk, if_pos h1], by omega⟩
    · by_cases h2 : (current == folderId) = true
      · exact ⟨.error "Cannot create circular reference in folder hierarchy", 0,
          by rw [ancestorWalk, if_neg h1, if_pos h2], by omega⟩
      · have hnv : current ∉ vis := by
          intro hc
          exact h1 (by simpa using hc)
        have hnfld : current ≠ folderId := by
          intro hc
          exact h2 (by simpa using hc)
        cases hfind : findById s current with
        | none =>
          refine ⟨.error "Parent folder not found", 1, ?_, by omega⟩
          simp [ancestorWalk, hnv, hnfld, hfind]
        | some f =>
          cases hpar : f.parent_folder_id with
          | none =>
            refine ⟨.ok (), 1, ?_, by omega⟩
            simp [ancestorWalk, hnv, hnfld, hfind, hpar]
          | some p =>
            have hmem : current ∈ storeIds s := by
              obtain ⟨hf, hfid⟩ := findById_mem hfind
              exact List.mem_map.2 ⟨f, hf, hfid⟩
            have hlt := walkMeasure_lt hmem hnv hnfld
            obtain ⟨r, n, hw, hn⟩ := @ih p (current :: vis) (by omega)
            refine ⟨r, n + 1, ?_, by omega⟩
            simp [ancestorWalk, hnv, hnfld, hfind, hpar, hw]

/-- The walk measure of the empty visited set is at most the store size, and
is strictly below it when the folder being updated exists in the store. -/
theorem walkMeasure_nil_le (s : List Folder) (folderId : String) :
    walkMeasure s folderId [] ≤ s.length := by
  have h := List.length_filter_le (fun i => !(([] : List String).contains i) && i != folderId)
    (storeIds s)
  simpa [storeIds] using h

theorem walkMeasure_nil_lt {s : List Folder} {folderId : String}
    (hmem : folderId ∈ storeIds s) : walkMeasure s folderId [] < s.length := by
  have h : walkMeasure s folderId [] < (storeIds s).length := by
    refine List.length_filter_lt_length_iff_exists.2 ⟨folderId, hmem, by simp⟩
  simpa [storeIds] using h

/-! ### What the ancestor walk decides -/

/-- On a store where the proposed parent has a well-defined ancestor chain,
the walk returns the would-create-cycle error exactly when the folder being
updated lies on that chain, and accepts otherwise. -/
theorem ancestorWalk_on_chain {s : List Folder} {X : String} :
    ∀ {fuel : Nat} {current : String} {l : List String} {vis : List String},
    chainTo s fuel current = some l → l.Nodup → (∀ v ∈ vis, v ∉ l) →
    ∃ n, ancestorWalk s X fuel current vis =
      some ((if X ∈ l then Except.error "Cannot create circular reference in folder hierarchy"
             else Except.ok ()), n) := by
  intro fuel
  induction fuel with
  | zero => intro current l vis h; simp [chainTo, chainToF] at h
  | succ m ih =>
    intro current l vis h hnd hdisj
    rw [chainTo, chainToF] at h
    have hcurl : current ∈ l := by
      cases hpv : parentView s current with
      | none => rw [hpv] at h; exact absurd h (by simp)
      | some par =>
        rw [hpv] at h
        cases par with
        | none => obtain rfl : [current] = l := Option.some.inj h; simp
        | some p =>
          simp only [Option.map_eq_some'] at h
          obtain ⟨m0, _, rfl⟩ := h
          simp
    have hnv : current ∉ vis := fun hc => hdisj current hc hcurl
    cases hpv : parentView s current with
    | none => rw [hpv] at h; exact absurd h (by simp)
    | some par =>
      rw [hpv] at h
      obtain ⟨f, hfind, hfpar⟩ : ∃ f, findById s current = some f ∧ f.parent_folder_id = par := by
        rw [parentView, Option.map_eq_some'] at hpv
        obtain ⟨f, hf1, hf2⟩ := hpv
        exact ⟨f, hf1, hf2⟩
      cases par with
      | none =>
        obtain rfl : [current] = l := Option.some.inj h
        by_cases hX : X = current
        · subst hX
          exact ⟨0, by simp [ancestorWalk, hnv]⟩
        · refine ⟨1, ?_⟩
          have hXl : X ∈ [current] ↔ False := by simp [hX]
          simp [ancestorWalk, hnv, Ne.symm hX, hfind, hfpar, hX]
      | some p =>
        simp only [Option.map_eq_some'] at h
        obtain ⟨m0, hm0, rfl⟩ := h
        by_cases hX : X = current
        · subst hX
          exact ⟨0, by simp [ancestorWalk, hnv]⟩
        · have hnodup := List.nodup_cons.1 hnd
          have hdisj2 : ∀ v ∈ current :: vis, v ∉ m0 := by
            intro v hv
            rcases List.mem_cons.1 hv with rfl | hvv
            · exact hnodup.1
            · exact fun hvm => hdisj v hvv (List.mem_cons_of_mem _ hvm)
          obtain ⟨n, hw⟩ := @ih p m0 (current :: vis) hm0 hnodup.2 hdisj2
          refine ⟨n + 1, ?_⟩
          have hXmem : ((if X ∈ current :: m0 then
                Except.error "Cannot create circular reference in folder hierarchy"
              else Except.ok ()) : Except String Unit)
              = (if X ∈ m0 then
                Except.error "Cannot create circular reference in folder hierarchy"
              else Except.ok ()) := by
            simp [List.mem_cons, hX]
          rw [hXmem]
          simp [ancestorWalk, hnv, Ne.symm hX, hfind, hfpar, hw]

/-- A walk that runs into a dangling parent reference returns the
parent-not-found error (whatever the fuel, whenever it returns at all). -/
theorem ancestorWalk_dangles {s : List Folder} {X : String} :
    ∀ {cur : String} {vis : List String}, WalkDangles s X cur vis →
    ∀ {fuel : Nat} {r : Except String Unit} {n : Nat},
    ancestorWalk s X fuel cur vis = some (r, n) →
    r = Except.error "Parent folder not found" := by
  intro cur vis hd
  induction hd with
  | dangle i vis hnv hnx hfind =>
    intro fuel r n hw
    cases fuel with
    | zero => simp [ancestorWalk] at hw
    | succ m =>
      simp [ancestorWalk, hnv, hnx, hfind] at hw
      exact hw.1.symm
  | step i vis f p hnv hnx hfind hpar hrec ih =>
    intro fuel r n hw
    cases fuel with
    | zero => simp [ancestorWalk] at hw
    | succ m =>
      simp only [ancestorWalk] at hw
      rw [if_neg (by simpa using hnv), if_neg (by simpa using hnx), hfind] at hw
      simp only [hpar, Option.map_eq_some'] at hw
      obtain ⟨⟨r0, n0⟩, hw0, heq⟩ := hw
      obtain ⟨h1, _⟩ := Prod.mk.injEq .. ▸ heq
      exact h1 ▸ ih hw0

/-! ### The validation routine -/

theorem validate_eq_of_chain {s : List Folder} {X P : String} {l : List String}
    (hne : X ≠ P) (hch : chainTo s (s.length + 1) P = some l) :
    validateNoCircularReference s X P =
      (if X ∈ l then Except.error "Cannot create circular reference in folder hierarchy"
       else Except.ok ()) := by
  obtain ⟨n, hw⟩ := ancestorWalk_on_chain (X := X) hch (chainToF_nodup hch)
    (fun v hv => absurd hv (List.not_mem_nil v))
  rw [validateNoCircularReference, if_neg (by simpa using hne), hw]

theorem validate_dangles {s : List Folder} {X P : String}
    (hne : X ≠ P) (hd : WalkDangles s X P []) :
    validateNoCircularReference s X P = Except.error "Parent folder not found" := by
  have hm : walkMeasure s X [] < s.length + 1 :=
    Nat.lt_succ_of_le (walkMeasure_nil_le s X)
  obtain ⟨r, n, hw, _⟩ := @ancestorWalk_total s X (s.length + 1) P [] hm
  have hr := ancestorWalk_dangles hd hw
  rw [validateNoCircularReference, if_neg (by simpa using hne), hw, hr]

/-! ### Rewiring the parent graph -/

/-- A self-looping id has no ancestor chain. -/
theorem chainToF_self_loop {pm : String → Option (Option String)} {i : String}
    (hpm : pm i = some (some i)) : ∀ {fuel : Nat}, chainToF pm fuel i = none := by
  intro fuel
  induction fuel with
  | zero => rfl
  | succ m ih => simp [chainToF, hpm, ih]

/-- Rewiring a single node: if `pm'` agrees with `pm` away from `X` and `X`
itself has a chain under `pm'`, every id with a chain under `pm` has one
under `pm'`. -/
theorem chainToF_reroute {pm pm' : String → Option (Option String)} {X : String}
    (hoff : ∀ i, i ≠ X → pm' i = pm i)
    (hX : ∃ fuelX, (chainToF pm' fuelX X).isSome = true) :
    ∀ {fuel : Nat} {g : String}, (chainToF pm fuel g).isSome = true →
    ∃ fuel2, (chainToF pm' fuel2 g).isSome = true := by
  intro fuel
  induction fuel with
  | zero => intro g h; simp [chainToF] at h
  | succ m ih =>
    intro g h
    by_cases hg : g = X
    · subst hg; exact hX
    · rw [chainToF] at h
      cases hpm : pm g with
      | none => rw [hpm] at h; simp at h
      | some par =>
        rw [hpm] at h
        cases par with
        | none =>
          refine ⟨1, ?_⟩
          show (chainToF pm' (0 + 1) g).isSome = true
          simp [chainToF, hoff g hg, hpm]
        | some p =>
          have hp : (chainToF pm m p).isSome = true := by
            simpa using h
          obtain ⟨f2, h2⟩ := ih hp
          obtain ⟨lp, hlp⟩ := Option.isSome_iff_exists.1 h2
          refine ⟨f2 + 1, ?_⟩
          simp [chainToF, hoff g hg, hpm, hlp]

/-- Splicing a node out: `F` has parent `pF` under `pm`; `pm'` agrees with
`pm` away from `F` except that parents equal to `F` are replaced by `pF`.
Every id other than `F` with a chain under `pm` has one under `pm'`. -/
theorem chainToF_splice {pm pm' : String → Option (Option String)} {F : String}
    {pF : Option String} (hF : pm F = some pF)
    (hoff : ∀ i, i ≠ F →
      pm' i = (pm i).map (fun par => if par = some F then pF else par)) :
    ∀ {fuel : Nat} {g : String}, g ≠ F → (chainToF pm fuel g).isSome = true →
    ∃ fuel2, (chainToF pm' fuel2 g).isSome = true := by
  intro fuel
  induction fuel using Nat.strong_induction_on with
  | _ fuel ih =>
    intro g hg h
    match fuel with
    | 0 => simp [chainToF] at h
    | m + 1 =>
      rw [chainToF] at h
      cases hpm : pm g with
      | none => rw [hpm] at h; simp at h
      | some par =>
        rw [hpm] at h
        have hpm' : pm' g = some (if par = some F then pF else par) := by
          rw [hoff g hg, hpm]
          rfl
        cases par with
        | none =>
          refine ⟨1, ?_⟩
          show (chainToF pm' (0 + 1) g).isSome = true
          have : pm' g = some none := by simpa using hpm'
          simp [chainToF, this]
        | some p =>
          have hp : (chainToF pm m p).isSome = true := by simpa using h
          by_cases hpF : p = F
          · -- the chain of g passes through F; step over F to its parent pF
            rw [hpF] at hp
            rw [if_pos (by rw [hpF])] at hpm'
            cases pF with
            | none =>
              refine ⟨1, ?_⟩
              show (chainToF pm' (0 + 1) g).isSome = true
              simp [chainToF, hpm']
            | some q =>
              cases m with
              | zero => simp [chainToF] at hp
              | succ m' =>
                have hq : (chainToF pm m' q).isSome = true := by
                  simp only [chainToF, hF] at hp
                  simpa using hp
                have hqF : q ≠ F := by
                  intro hqe
                  subst hqe
                  rw [chainToF_self_loop hF] at hq
                  simp at hq
                obtain ⟨f2, h2⟩ := ih m' (by omega) hqF hq
                obtain ⟨lq, hlq⟩ := Option.isSome_iff_exists.1 h2
                refine ⟨f2 + 1, ?_⟩
                simp [chainToF, hpm', hlq]
          · obtain ⟨f2, h2⟩ := ih m (by omega) hpF hp
            obtain ⟨lp, hlp⟩ := Option.isSome_iff_exists.1 h2
            rw [if_neg (by simpa using hpF)] at hpm'
            refine ⟨f2 + 1, ?_⟩
            simp [chainToF, hpm', hlp]

/-- A successful walk means the proposed parent has an ancestor chain that
avoids the folder being updated. -/
theorem ancestorWalk_ok_chain {s : List Folder} {X : String} :
    ∀ {fuel : Nat} {cur : String} {vis : List String} {n : Nat},
    ancestorWalk s X fuel cur vis = some (Except.ok (), n) →
    ∃ l, chainTo s fuel cur = some l ∧ X ∉ l := by
  intro fuel
  induction fuel with
  | zero => intro cur vis n h; simp [ancestorWalk] at h
  | succ m ih =>
    intro cur vis n h
    rw [ancestorWalk] at h
    by_cases h1 : vis.contains cur = true
    · rw [if_pos h1] at h
      simp at h
    · rw [if_neg h1] at h
      by_cases h2 : (cur == X) = true
      · rw [if_pos h2] at h
        simp at h
      · rw [if_neg h2] at h
        have hXcur : X ≠ cur := by
          intro he
          exact h2 (by simp [he])
        cases hfind : findById s cur with
        | none =>
          rw [hfind] at h
          simp at h
        | some f =>
          cases hpar : f.parent_folder_id with
          | none =>
            refine ⟨[cur], ?_, by simpa using hXcur⟩
            rw [chainTo, chainToF, parentView, hfind]
            simp [hpar]
          | some p =>
            simp only [hfind, hpar, Option.map_eq_some'] at h
            obtain ⟨⟨r0, n0⟩, hw0, heq⟩ := h
            have hr0 : r0 = Except.ok () := by
              have := (Prod.mk.injEq .. ▸ heq).1
              exact this
            subst hr0
            obtain ⟨l, hl, hXl⟩ := ih hw0
            refine ⟨cur :: l, ?_, ?_⟩
            · rw [chainTo] at hl
              rw [chainTo, chainToF, parentView, hfind]
              simp only [Option.map_some']
              rw [hpar]
              show Option.map (fun l2 => cur :: l2) (chainToF (parentView s) m p) = some (cur :: l)
              rw [hl]
              rfl
            · intro hmem
              rcases List.mem_cons.1 hmem with he | hX2
              · exact hXcur he
              · exact hXl hX2

/-! ### Helper lemmas about finding rows after writes -/

theorem find?_filter_of_imp {α : Type} {l : List α} {p q : α → Bool}
    (h : ∀ a, q a = true → p a = true) : (l.filter p).find? q = l.find? q := by
  induction l with
  | nil => rfl
  | cons a t ih =>
    by_cases hq : q a = true
    · rw [List.filter_cons, if_pos (h a hq)]
      rw [List.find?_cons_of_pos _ hq, List.find?_cons_of_pos _ hq]
    · rw [List.find?_cons_of_neg _ (by simpa using hq)]
      rw [List.filter_cons]
      by_cases hp : p a = true
      · rw [if_pos hp, List.find?_cons_of_neg _ (by simpa using hq)]
        exact ih
      · rw [if_neg hp]
        exact ih

/-- With unique ids, two rows of the store with the same id are the same
row. -/
theorem eq_of_mem_of_id_eq {s : List Folder} {f g : Folder}
    (hnd : (storeIds s).Nodup) (hf : f ∈ s) (hg : g ∈ s) (he : g.id = f.id) : g = f := by
  have h1 := findById_of_mem hnd hf
  have h2 := findById_of_mem hnd hg
  rw [he, h1] at h2
  exact (Option.some.inj h2).symm

/-! ### The parent graph after each write -/

theorem parentView_updRow_ne (s : List Folder) (inp : UpdateFolderInput) (now : Nat)
    {i : String} (hne : i ≠ inp.id) :
    parentView (s.map (updRow inp now)) i = parentView s i := by
  rw [parentView, parentView, findById_map (fun f => by rw [updRow]; split <;> rfl)]
  cases hfind : findById s i with
  | none => rfl
  | some f =>
    have hid : f.id = i := (findById_mem hfind).2
    simp only [Option.map_some']
    rw [updRow, if_neg (by simp [hid, hne])]

theorem parentView_updRow_self {s : List Folder} {inp : UpdateFolderInput} {now : Nat}
    {cur : Folder} (hfind : findById s inp.id = some cur) :
    parentView (s.map (updRow inp now)) inp.id
      = some (inp.parent_folder_id.getD cur.parent_folder_id) := by
  rw [parentView, findById_map (fun f => by rw [updRow]; split <;> rfl), hfind]
  have hid : cur.id = inp.id := (findById_mem hfind).2
  simp only [Option.map_some']
  rw [updRow, if_pos (by simp [hid])]
  rfl

/-! ### Shape of successful handler runs -/

theorem updateFolder_ok_elim {s : List Folder} {now : Nat} {inp : UpdateFolderInput}
    {f' : Folder} {s' : List Folder}
    (h : updateFolder s now inp = (Except.ok f', s')) :
    ∃ cur, findById s inp.id = some cur ∧
      (∀ p, inp.parent_folder_id = some (some p) →
        validateNoCircularReference s inp.id p = Except.ok ()) ∧
      f' = applyFolderUpdate inp now cur ∧ s' = s.map (updRow inp now) := by
  rw [updateFolder] at h
  cases hfind : findById s inp.id with
  | none => rw [hfind] at h; exact absurd h (by simp)
  | some cur =>
    refine ⟨cur, rfl, ?_⟩
    cases hpin : inp.parent_folder_id with
    | none =>
      simp only [hfind, hpin] at h
      obtain ⟨h1, h2⟩ := Prod.mk.injEq .. ▸ h
      exact ⟨fun p hp => by simp at hp, by simpa using h1.symm, h2.symm⟩
    | some pin =>
      cases pin with
      | none =>
        simp only [hfind, hpin] at h
        obtain ⟨h1, h2⟩ := Prod.mk.injEq .. ▸ h
        exact ⟨fun p hp => by simp at hp, by simpa using h1.symm, h2.symm⟩
      | some p =>
        cases hv : validateNoCircularReference s inp.id p with
        | error e =>
          simp only [hfind, hpin, hv] at h
          exact absurd h (by simp)
        | ok u =>
          simp only [hfind, hpin, hv] at h
          obtain ⟨h1, h2⟩ := Prod.mk.injEq .. ▸ h
          refine ⟨fun q hq => ?_, by simpa using h1.symm, h2.symm⟩
          obtain rfl : p = q := by simpa using hq
          rw [hv]

theorem deleteFolder_ok_elim {s : List Folder} {notes : List Note}
    {inp : DeleteFolderInput} {s2 : List Folder} {n2 : List Note}
    (h : deleteFolder s notes inp = (Except.ok (), s2, n2)) :
    ∃ f, s.find? (fun g => g.id == inp.id && g.user_id == inp.user_id) = some f ∧
      s2 = (s.map (reassignFolder inp.id f.parent_folder_id)).filter
        (fun g => !(g.id == inp.id && g.user_id == inp.user_id)) ∧
      n2 = notes.map (reassignNote inp.id f.parent_folder_id) := by
  rw [deleteFolder] at h
  cases hfind : s.find? (fun g => g.id == inp.id && g.user_id == inp.user_id) with
  | none => rw [hfind] at h; exact absurd h (by simp)
  | some f =>
    simp only [hfind] at h
    obtain ⟨_, h2⟩ := Prod.mk.injEq .. ▸ h
    obtain ⟨h3, h4⟩ := Prod.mk.injEq .. ▸ h2
    exact ⟨f, rfl, h3.symm, h4.symm⟩

/-! ### Acyclicity preservation -/

theorem updateFolder_preserves_acyclic {s : List Folder} {now : Nat}
    {inp : UpdateFolderInput} {f' : Folder} {s' : List Folder}
    (hacy : Acyclic s)
    (h : updateFolder s now inp = (Except.ok f', s')) : Acyclic s' := by
  obtain ⟨cur, hfind, hval, _, hs'⟩ := updateFolder_ok_elim h
  subst hs'
  have hoff : ∀ i, i ≠ inp.id →
      parentView (s.map (updRow inp now)) i = parentView s i :=
    fun i hi => parentView_updRow_ne s inp now hi
  have hXpv := @parentView_updRow_self s inp now cur hfind
  have hidcur : cur.id = inp.id := (findById_mem hfind).2
  have hX : ∃ fx, (chainToF (parentView (s.map (updRow inp now))) fx inp.id).isSome = true := by
    cases hpin : inp.parent_folder_id with
    | none =>
      have hpvX : parentView (s.map (updRow inp now)) inp.id = parentView s inp.id := by
        rw [hXpv, hpin, parentView, hfind]
        rfl
      have hcur := hacy cur (findById_mem hfind).1
      rw [hidcur, chainTo] at hcur
      obtain ⟨l, hl⟩ := Option.isSome_iff_exists.1 hcur
      have hnodup := chainToF_nodup hl
      have hagree : ∀ j ∈ l, parentView (s.map (updRow inp now)) j = parentView s j := by
        intro j hj
        by_cases hje : j = inp.id
        · rw [hje]; exact hpvX
        · exact hoff j hje
      exact ⟨s.length, by rw [chainToF_congr_on hl hagree]; rfl⟩
    | some pin =>
      cases pin with
      | none =>
        refine ⟨1, ?_⟩
        show (chainToF (parentView (s.map (updRow inp now))) (0 + 1) inp.id).isSome = true
        rw [chainToF, hXpv, hpin]
        rfl
      | some P =>
        have hv := hval P hpin
        have hXP : inp.id ≠ P := by
          intro he
          rw [validateNoCircularReference, if_pos (by simp [he])] at hv
          exact absurd hv (by simp)
        rw [validateNoCircularReference, if_neg (by simpa using hXP)] at hv
        cases hw : ancestorWalk s inp.id (s.length + 1) P [] with
        | none =>
          rw [hw] at hv
          exact absurd hv (by simp)
        | some rn =>
          obtain ⟨r, n⟩ := rn
          rw [hw] at hv
          have hok : ancestorWalk s inp.id (s.length + 1) P [] = some (Except.ok (), n) := by
            rw [hw]
            have : r = Except.ok () := by
              cases r with
              | error e => exact absurd hv (by simp)
              | ok u => rfl
            rw [this]
          obtain ⟨l, hl, hXl⟩ := ancestorWalk_ok_chain hok
          rw [chainTo] at hl
          have hl' := chainToF_congr_on hl
            (fun j hj => hoff j (fun he => hXl (he ▸ hj)))
          refine ⟨(s.length + 1) + 1, ?_⟩
          rw [chainToF, hXpv, hpin]
          show (Option.map (fun l2 => inp.id :: l2)
            (chainToF (parentView (s.map (updRow inp now))) (s.length + 1) P)).isSome = true
          rw [hl']
          rfl
  intro g' hg'
  obtain ⟨g, hg, rfl⟩ := List.mem_map.1 hg'
  have hgid : (updRow inp now g).id = g.id := by
    rw [updRow]; split <;> rfl
  rw [hgid]
  have hchain := hacy g hg
  rw [chainTo] at hchain
  obtain ⟨f2, h2⟩ := chainToF_reroute hoff hX hchain
  obtain ⟨l2, hl2⟩ := Option.isSome_iff_exists.1 h2
  have hconv : chainTo (s.map (updRow inp now)) f2 g.id = some l2 := by
    rw [chainTo]; exact hl2
  rw [chainTo_compress hconv]
  rfl

theorem deleteFolder_preserves_acyclic {s : List Folder} {notes : List Note}
    {inp : DeleteFolderInput} {s2 : List Folder} {n2 : List Note}
    (hnd : (storeIds s).Nodup) (hacy : Acyclic s)
    (h : deleteFolder s notes inp = (Except.ok (), s2, n2)) : Acyclic s2 := by
  obtain ⟨f, hfind, hs2, _⟩ := deleteFolder_ok_elim h
  have hfs : f ∈ s := List.mem_of_find?_eq_some hfind
  have hfp := List.find?_some hfind
  simp only [Bool.and_eq_true, beq_iff_eq] at hfp
  have hfid : f.id = inp.id := hfp.1
  have hfuser : f.user_id = inp.user_id := hfp.2
  have hFget : findById s inp.id = some f := by
    rw [← hfid]
    exact findById_of_mem hnd hfs
  have hF : parentView s inp.id = some f.parent_folder_id := by
    rw [parentView, hFget]
    rfl
  have hid_reassign : ∀ g, (reassignFolder inp.id f.parent_folder_id g).id = g.id := by
    intro g
    rw [reassignFolder]
    split <;> rfl
  have huser_reassign : ∀ g,
      (reassignFolder inp.id f.parent_folder_id g).user_id = g.user_id := by
    intro g
    rw [reassignFolder]
    split <;> rfl
  have hoff : ∀ i, i ≠ inp.id → parentView s2 i
      = (parentView s i).map
        (fun par => if par = some inp.id then f.parent_folder_id else par) := by
    intro i hi
    rw [hs2, parentView]
    have hfilt : findById ((s.map (reassignFolder inp.id f.parent_folder_id)).filter
        (fun g => !(g.id == inp.id && g.user_id == inp.user_id))) i
        = findById (s.map (reassignFolder inp.id f.parent_folder_id)) i := by
      rw [findById, findById]
      refine find?_filter_of_imp ?_
      intro a ha
      have haid : a.id = i := by simpa using ha
      simp [haid, hi]
    rw [hfilt, findById_map hid_reassign]
    cases hgi : findById s i with
    | none =>
      rw [parentView, hgi]
      rfl
    | some g =>
      simp only [Option.map_some']
      rw [parentView, hgi]
      simp only [Option.map_some']
      rw [reassignFolder]
      by_cases hgp : g.parent_folder_id = some inp.id
      · rw [if_pos (by simp [hgp]), if_pos hgp]
      · rw [if_neg (by simpa using hgp), if_neg hgp]
  intro g2 hg2
  rw [hs2] at hg2
  obtain ⟨hg2m, hg2p⟩ := List.mem_filter.1 hg2
  obtain ⟨g, hg, rfl⟩ := List.mem_map.1 hg2m
  have hgF : g.id ≠ inp.id := by
    intro he
    have hgf : g = f := eq_of_mem_of_id_eq hnd hfs hg (by rw [he, hfid])
    rw [hgf] at hg2p
    rw [reassignFolder] at hg2p
    split at hg2p <;> simp [hfid, hfuser] at hg2p
  have hchain := hacy g hg
  rw [chainTo] at hchain
  obtain ⟨f2, h2⟩ := @chainToF_splice (parentView s) (parentView s2) inp.id
    f.parent_folder_id hF (fun i hi => hoff i hi) s.length g.id hgF hchain
  obtain ⟨l2, hl2⟩ := Option.isSome_iff_exists.1 h2
  have hgid2 : (reassignFolder inp.id f.parent_folder_id g).id = g.id := hid_reassign g
  rw [hgid2]
  have hconv : chainTo s2 f2 g.id = some l2 := by
    rw [chainTo]
    exact hl2
  rw [chainTo_compress hconv]
  rfl

/-! ### deleteFolder helper lemmas -/

theorem reassignFolder_id (delId : String) (np : Option String) (g : Folder) :
    (reassignFolder delId np g).id = g.id := by
  rw [reassignFolder]; split <;> rfl

theorem reassignFolder_user (delId : String) (np : Option String) (g : Folder) :
    (reassignFolder delId np g).user_id = g.user_id := by
  rw [reassignFolder]; split <;> rfl

theorem find?_delete_pred {s : List Folder} {inp : DeleteFolderInput} {F : Folder}
    (hnd : (storeIds s).Nodup) (hF : F ∈ s) (hFid : F.id = inp.id)
    (hFuser : F.user_id = inp.user_id) :
    s.find? (fun g => g.id == inp.id && g.user_id == inp.user_id) = some F := by
  cases hfind : s.find? (fun g => g.id == inp.id && g.user_id == inp.user_id) with
  | none =>
    rw [List.find?_eq_none] at hfind
    exact absurd (by simp [hFid, hFuser]) (hfind F hF)
  | some f0 =>
    have hf0 := List.find?_some hfind
    simp only [Bool.and_eq_true, beq_iff_eq] at hf0
    have hmem := List.mem_of_find?_eq_some hfind
    have he : f0 = F := eq_of_mem_of_id_eq hnd hF hmem (by rw [hf0.1, hFid])
    rw [he]

theorem findById_after_delete {s : List Folder} {inp : DeleteFolderInput} {F : Folder}
    (hnd : (storeIds s).Nodup)
    (hfind : s.find? (fun g => g.id == inp.id && g.user_id == inp.user_id) = some F) :
    findById ((s.map (reassignFolder inp.id F.parent_folder_id)).filter
      (fun g => !(g.id == inp.id && g.user_id == inp.user_id))) inp.id = none := by
  have hFp := List.find?_some hfind
  simp only [Bool.and_eq_true, beq_iff_eq] at hFp
  rw [findById, List.find?_eq_none]
  intro x hx hxid
  obtain ⟨hxm, hxp⟩ := List.mem_filter.1 hx
  obtain ⟨g, hg, rfl⟩ := List.mem_map.1 hxm
  have hgid : g.id = inp.id := by
    have := reassignFolder_id inp.id F.parent_folder_id g
    rw [← this]
    simpa using hxid
  have hgF : g = F :=
    eq_of_mem_of_id_eq hnd (List.mem_of_find?_eq_some hfind) hg (by rw [hgid, hFp.1])
  rw [reassignFolder_id inp.id F.parent_folder_id g,
    reassignFolder_user inp.id F.parent_folder_id g, hgF, hFp.1, hFp.2] at hxp
  simp at hxp

theorem delete_length {s : List Folder} {inp : DeleteFolderInput} {F : Folder}
    (hnd : (storeIds s).Nodup)
    (hfind : s.find? (fun g => g.id == inp.id && g.user_id == inp.user_id) = some F) :
    ((s.map (reassignFolder inp.id F.parent_folder_id)).filter
      (fun g => !(g.id == inp.id && g.user_id == inp.user_id))).length + 1 = s.length := by
  have hFp := List.find?_some hfind
  simp only [Bool.and_eq_true, beq_iff_eq] at hFp
  obtain ⟨l1, l2, hsplit⟩ := List.append_of_mem (List.mem_of_find?_eq_some hfind)
  subst hsplit
  have hids : F.id ∉ storeIds l1 ∧ F.id ∉ storeIds l2 := by
    rw [storeIds, List.map_append, List.map_cons] at hnd
    have h1 := List.Nodup.of_append_right hnd
    have h2 := (List.nodup_append.1 hnd).2.2
    constructor
    · intro hmem
      exact h2 (a := F.id) (by simpa [storeIds] using hmem) (by simp)
    · have := List.nodup_cons.1 h1
      intro hmem
      exact this.1 (by simpa [storeIds] using hmem)
  have hpass : ∀ t : List Folder, F.id ∉ storeIds t →
      (t.map (reassignFolder inp.id F.parent_folder_id)).filter
        (fun g => !(g.id == inp.id && g.user_id == inp.user_id))
      = t.map (reassignFolder inp.id F.parent_folder_id) := by
    intro t ht
    rw [List.filter_eq_self]
    intro a ha
    obtain ⟨g, hg, rfl⟩ := List.mem_map.1 ha
    have hgne : g.id ≠ inp.id := by
      intro he
      exact ht (by
        rw [← hFp.1] at he
        exact List.mem_map.2 ⟨g, hg, he⟩)
    rw [reassignFolder_id]
    simp [hgne]
  have hFfail : (!((reassignFolder inp.id F.parent_folder_id F).id == inp.id
      && (reassignFolder inp.id F.parent_folder_id F).user_id == inp.user_id)) = false := by
    rw [reassignFolder_id, reassignFolder_user]
    simp [hFp.1, hFp.2]
  rw [List.map_append, List.map_cons, List.filter_append, List.filter_cons, hFfail]
  rw [hpass l1 hids.1, hpass l2 hids.2]
  simp
  omega

theorem updateFolder_validate_path {s : List Folder} {now : Nat} {X P : String}
    {name : Option String} {cur : Folder} (hfind : findById s X = some cur) :
    updateFolder s now ⟨X, name, some (some P)⟩
      = (match validateNoCircularReference s X P with
         | Except.error e => (Except.error e, s)
         | Except.ok _ => (Except.ok (applyFolderUpdate ⟨X, name, some (some P)⟩ now cur),
             s.map (updRow ⟨X, name, some (some P)⟩ now))) := by
  rw [updateFolder]
  simp only [hfind]

/-! ### Claims -/

/-- C1: for every folder F owned by user U that exists in the store (ids
unique), deleteFolder(id = F, user_id = U) succeeds, and afterwards: every
note whose folder_id was F now carries F's original parent and all other
notes are untouched, every remaining folder whose parent was F now carries
F's original parent and all other remaining folders are untouched, F's id no
longer resolves, and exactly one folder row was removed (children are
re-parented, never deleted). -/
theorem claim_C1 {s : List Folder} {notes : List Note} {inp : DeleteFolderInput}
    {F : Folder} (hnd : (storeIds s).Nodup) (hF : F ∈ s) (hFid : F.id = inp.id)
    (hFuser : F.user_id = inp.user_id) :
    ∃ s2 n2, deleteFolder s notes inp = (Except.ok (), s2, n2) ∧
      n2.length = notes.length ∧
      (∀ k, k < notes.length → ∃ o m, notes[k]? = some o ∧ n2[k]? = some m ∧
        (o.folder_id = some inp.id → m.folder_id = F.parent_folder_id) ∧
        (o.folder_id ≠ some inp.id → m = o)) ∧
      findById s2 inp.id = none ∧
      (∀ g ∈ s, g.id ≠ inp.id → ∃ g2 ∈ s2, g2.id = g.id ∧
        (g.parent_folder_id = some inp.id → g2.parent_folder_id = F.parent_folder_id) ∧
        (g.parent_folder_id ≠ some inp.id → g2 = g)) ∧
      s2.length + 1 = s.length := by
  have hfind := find?_delete_pred hnd hF hFid hFuser
  refine ⟨(s.map (reassignFolder inp.id F.parent_folder_id)).filter
      (fun g => !(g.id == inp.id && g.user_id == inp.user_id)),
    notes.map (reassignNote inp.id F.parent_folder_id), ?_, ?_, ?_, ?_, ?_, ?_⟩
  · rw [deleteFolder, hfind]
  · simp
  · intro k hk
    obtain ⟨o, ho⟩ : ∃ o, notes[k]? = some o := by
      refine ⟨notes.get ⟨k, hk⟩, ?_⟩
      simp
    refine ⟨o, reassignNote inp.id F.parent_folder_id o, ho, ?_, ?_, ?_⟩
    · rw [List.getElem?_map, ho]
      rfl
    · intro hof
      rw [reassignNote, if_pos (by simp [hof])]
    · intro hof
      rw [reassignNote, if_neg (by simpa using hof)]
  · exact findById_after_delete hnd hfind
  · intro g hg hgne
    refine ⟨reassignFolder inp.id F.parent_folder_id g, ?_, reassignFolder_id .., ?_, ?_⟩
    · refine List.mem_filter.2 ⟨List.mem_map.2 ⟨g, hg, rfl⟩, ?_⟩
      rw [reassignFolder_id]
      simp [hgne]
    · intro hgp
      rw [reassignFolder, if_pos (by simp [hgp])]
    · intro hgp
      rw [reassignFolder, if_neg (by simpa using hgp)]
  · exact delete_length hnd hfind

/-- Witness for C1 at a concrete store: a root folder with one child folder
and one contained note; the child is promoted to root, the note unfiled, and
only the deleted row disappears. -/
theorem claim_C1_witness :
    ∃ s2 n2,
      deleteFolder
        [⟨"f", "F", "u", none, 0, 0⟩, ⟨"c", "C", "u", some "f", 0, 0⟩]
        [⟨"n", "T", "B", "u", some "f"⟩] ⟨"f", "u"⟩ = (Except.ok (), s2, n2) ∧
      n2.length = 1 ∧
      (∀ k, k < 1 → ∃ o m,
        ([(⟨"n", "T", "B", "u", some "f"⟩ : Note)])[k]? = some o ∧ n2[k]? = some m ∧
        (o.folder_id = some "f" → m.folder_id = none) ∧
        (o.folder_id ≠ some "f" → m = o)) ∧
      findById s2 "f" = none ∧
      (∀ g ∈ [(⟨"f", "F", "u", none, 0, 0⟩ : Folder), ⟨"c", "C", "u", some "f", 0, 0⟩],
        g.id ≠ "f" → ∃ g2 ∈ s2, g2.id = g.id ∧
        (g.parent_folder_id = some "f" → g2.parent_folder_id = none) ∧
        (g.parent_folder_id ≠ some "f" → g2 = g)) ∧
      s2.length + 1 = 2 :=
  @claim_C1 [⟨"f", "F", "u", none, 0, 0⟩, ⟨"c", "C", "u", some "f", 0, 0⟩]
    [⟨"n", "T", "B", "u", some "f"⟩] ⟨"f", "u"⟩ ⟨"f", "F", "u", none, 0, 0⟩
    (by decide) (by decide) (by decide) (by decide)

/-- C7: deleteFolder fails with the single combined not-found/access-denied
error exactly when no folder row has both the given id and the given owner,
and on any failure neither table is modified. -/
theorem claim_C7 (s : List Folder) (notes : List Note) (inp : DeleteFolderInput) :
    ((deleteFolder s notes inp).1 = Except.error "Folder not found or access denied"
      ↔ ¬∃ f ∈ s, f.id = inp.id ∧ f.user_id = inp.user_id) ∧
    (∀ e, (deleteFolder s notes inp).1 = Except.error e →
      (deleteFolder s notes inp).2.1 = s ∧ (deleteFolder s notes inp).2.2 = notes) := by
  cases hfind : s.find? (fun g => g.id == inp.id && g.user_id == inp.user_id) with
  | none =>
    have hres : deleteFolder s notes inp
        = (Except.error "Folder not found or access denied", s, notes) := by
      rw [deleteFolder, hfind]
    rw [hres]
    constructor
    · simp only [true_iff]
      rw [List.find?_eq_none] at hfind
      rintro ⟨f, hf, hid, huser⟩
      exact hfind f hf (by simp [hid, huser])
    · intro e _
      exact ⟨rfl, rfl⟩
  | some f =>
    have hres : (deleteFolder s notes inp).1 = Except.ok () := by
      rw [deleteFolder, hfind]
    rw [hres]
    constructor
    · constructor
      · intro he
        exact absurd he (by simp)
      · intro hno
        have hfp := List.find?_some hfind
        simp only [Bool.and_eq_true, beq_iff_eq] at hfp
        exact absurd ⟨f, List.mem_of_find?_eq_some hfind, hfp.1, hfp.2⟩ hno
    · intro e he
      exact absurd he (by simp)

/-- Witness for C7: on the empty store the delete fails with the combined
error and both tables are returned unchanged. -/
theorem claim_C7_witness :
    (deleteFolder [] [] ⟨"a", "u"⟩).1 = Except.error "Folder not found or access denied"
    ∧ (deleteFolder [] [] ⟨"a", "u"⟩).2.1 = [] ∧ (deleteFolder [] [] ⟨"a", "u"⟩).2.2 = [] := by
  have h := claim_C7 [] [] ⟨"a", "u"⟩
  have h1 : (deleteFolder [] [] ⟨"a", "u"⟩).1
      = Except.error "Folder not found or access denied" :=
    h.1.2 (by simp)
  exact ⟨h1, (h.2 _ h1).1, (h.2 _ h1).2⟩

/-- C2: on a store satisfying the hierarchy invariants, updateFolder with an
existing folder X and an existing non-null proposed parent P fails with the
self-parent error exactly when P = X; otherwise it fails with the
would-create-cycle error exactly when X lies on the ancestor chain of P, and
is accepted when the walk from P reaches a root without hitting X. -/
theorem claim_C2 {s : List Folder} {now : Nat} {X P : String} {name : Option String}
    {fX fP : Folder} (hnd : (storeIds s).Nodup) (hacy : Acyclic s)
    (hX : findById s X = some fX) (hP : findById s P = some fP) :
    ((updateFolder s now ⟨X, name, some (some P)⟩).1
        = Except.error "Cannot set folder as its own parent" ↔ P = X) ∧
    (∀ l, chainTo s s.length P = some l →
      (P ≠ X → ((updateFolder s now ⟨X, name, some (some P)⟩).1
          = Except.error "Cannot create circular reference in folder hierarchy" ↔ X ∈ l)) ∧
      (P ≠ X → X ∉ l → ∃ f2, (updateFolder s now ⟨X, name, some (some P)⟩).1
          = Except.ok f2 ∧ f2.parent_folder_id = some P)) := by
  have hupd := @updateFolder_validate_path s now X P name fX hX
  by_cases hPX : P = X
  · have hv : validateNoCircularReference s X P
        = Except.error "Cannot set folder as its own parent" := by
      rw [validateNoCircularReference, if_pos (by simp [hPX])]
    rw [hupd, hv]
    exact ⟨by simp [hPX], fun l _ => ⟨fun hne => absurd hPX hne, fun hne => absurd hPX hne⟩⟩
  · have hPid : fP.id = P := (findById_mem hP).2
    have hch0 := hacy fP (findById_mem hP).1
    rw [hPid] at hch0
    obtain ⟨l0, hl0⟩ := Option.isSome_iff_exists.1 hch0
    have hv := validate_eq_of_chain (X := X) (fun he => hPX he.symm) (chainToF_mono hl0)
    constructor
    · rw [hupd, hv]
      by_cases hXl : X ∈ l0
      · rw [if_pos hXl]
        constructor
        · intro h
          have hstr : ("Cannot create circular reference in folder hierarchy" : String)
              = "Cannot set folder as its own parent" := Except.error.inj h
          exact absurd hstr (by decide)
        · intro h
          exact absurd h hPX
      · rw [if_neg hXl]
        constructor
        · intro h
          exact absurd h (by simp)
        · intro h
          exact absurd h hPX
    · intro l hl
      obtain rfl : l0 = l := chainToF_unique hl0 hl
      constructor
      · intro _
        rw [hupd, hv]
        by_cases hXl : X ∈ l0
        · rw [if_pos hXl]
          simp [hXl]
        · rw [if_neg hXl]
          simp [hXl]
      · intro _ hXl
        rw [hupd, hv, if_neg hXl]
        exact ⟨applyFolderUpdate ⟨X, name, some (some P)⟩ now fX, rfl, rfl⟩

/-- Witness for C2 at a concrete two-folder store: moving the child under the
root is accepted, the self-parent arm is false, and the cycle arm matches
membership in the root's chain. -/
theorem claim_C2_witness :
    ((updateFolder [⟨"a", "A", "u", none, 0, 0⟩, ⟨"b", "B", "u", some "a", 0, 0⟩] 3
        ⟨"b", none, some (some "a")⟩).1
        = Except.error "Cannot set folder as its own parent" ↔ "a" = "b") ∧
    (∀ l, chainTo [⟨"a", "A", "u", none, 0, 0⟩, ⟨"b", "B", "u", some "a", 0, 0⟩] 2 "a"
        = some l →
      ("a" ≠ "b" → ((updateFolder [⟨"a", "A", "u", none, 0, 0⟩, ⟨"b", "B", "u", some "a", 0, 0⟩] 3
          ⟨"b", none, some (some "a")⟩).1
          = Except.error "Cannot create circular reference in folder hierarchy" ↔ "b" ∈ l)) ∧
      ("a" ≠ "b" → "b" ∉ l →
        ∃ f2, (updateFolder [⟨"a", "A", "u", none, 0, 0⟩, ⟨"b", "B", "u", some "a", 0, 0⟩] 3
          ⟨"b", none, some (some "a")⟩).1 = Except.ok f2 ∧ f2.parent_folder_id = some "a")) :=
  @claim_C2 [⟨"a", "A", "u", none, 0, 0⟩, ⟨"b", "B", "u", some "a", 0, 0⟩]
    3 "b" "a" none ⟨"b", "B", "u", some "a", 0, 0⟩ ⟨"a", "A", "u", none, 0, 0⟩
    (by decide) (by decide) (by decide) (by decide)

/-- C10: when the ancestor walk from the proposed parent P runs into a
dangling reference — any id on the chain, the proposed parent included, that
passes the visited and self checks but does not resolve — updateFolder fails
with the parent-not-found error (not a hierarchy error) and the store is not
modified. -/
theorem claim_C10 {s : List Folder} {now : Nat} {X P : String} {name : Option String}
    {fX : Folder} (hfind : findById s X = some fX) (hne : P ≠ X)
    (hd : WalkDangles s X P []) :
    updateFolder s now ⟨X, name, some (some P)⟩
      = (Except.error "Parent folder not found", s) := by
  have hv := validate_dangles (fun he => hne he.symm) hd
  rw [@updateFolder_validate_path s now X P name fX hfind, hv]

/-- Witness for C10: a store where the proposed parent "p" exists but its
parent reference "q" dangles; the update is rejected with the
parent-not-found error and the store is unchanged. -/
theorem claim_C10_witness :
    updateFolder [⟨"x", "X", "u", none, 0, 0⟩, ⟨"p", "P", "u", some "q", 0, 0⟩] 4
        ⟨"x", none, some (some "p")⟩
      = (Except.error "Parent folder not found",
         [⟨"x", "X", "u", none, 0, 0⟩, ⟨"p", "P", "u", some "q", 0, 0⟩]) := by
  refine @claim_C10 [⟨"x", "X", "u", none, 0, 0⟩, ⟨"p", "P", "u", some "q", 0, 0⟩]
    4 "x" "p" none ⟨"x", "X", "u", none, 0, 0⟩ (by decide) (by decide) ?_
  refine WalkDangles.step "p" [] ⟨"p", "P", "u", some "q", 0, 0⟩ "q"
    (by decide) (by decide) (by decide) rfl ?_
  exact WalkDangles.dangle "q" ["p"] (by decide) (by decide) (by decide)

/-- C4 counterexample: a folder of user u1 is re-parented under a folder of
user u2 — updateFolder does not fail with the parent-not-found error; it
succeeds and commits the cross-user parent. -/
theorem claim_C4_counterexample :
    (updateFolder [⟨"x", "X", "u1", none, 0, 0⟩, ⟨"p", "P", "u2", none, 0, 0⟩] 5
        ⟨"x", none, some (some "p")⟩).1
      ≠ Except.error "Parent folder not found" ∧
    (updateFolder [⟨"x", "X", "u1", none, 0, 0⟩, ⟨"p", "P", "u2", none, 0, 0⟩] 5
        ⟨"x", none, some (some "p")⟩).1
      = Except.ok ⟨"x", "X", "u1", some "p", 0, 5⟩ := by
  constructor
  · intro h
    have h2 : (updateFolder [⟨"x", "X", "u1", none, 0, 0⟩, ⟨"p", "P", "u2", none, 0, 0⟩] 5
        ⟨"x", none, some (some "p")⟩).1 = Except.ok ⟨"x", "X", "u1", some "p", 0, 5⟩ := rfl
    rw [h2] at h
    exact absurd h (by simp)
  · rfl

/-- C4 amended: updateFolder checks only existence and acyclicity of the
proposed parent's chain, never its ownership: when the proposed parent exists
— even owned by a different user than the folder's owner — and the ancestor
walk accepts, the update succeeds and commits the cross-user parent. -/
theorem claim_C4_amended {s : List Folder} {now : Nat} {X P : String}
    {name : Option String} {fX fP : Folder} {l : List String}
    (hX : findById s X = some fX) (hP : findById s P = some fP)
    (howner : fP.user_id ≠ fX.user_id) (hne : P ≠ X)
    (hl : chainTo s s.length P = some l) (hXl : X ∉ l) :
    ∃ f2, updateFolder s now ⟨X, name, some (some P)⟩
        = (Except.ok f2, s.map (updRow ⟨X, name, some (some P)⟩ now))
      ∧ f2.parent_folder_id = some P ∧ f2.user_id = fX.user_id := by
  have hv := validate_eq_of_chain (X := X) (fun he => hne he.symm) (chainToF_mono hl)
  rw [if_neg hXl] at hv
  rw [@updateFolder_validate_path s now X P name fX hX, hv]
  exact ⟨applyFolderUpdate ⟨X, name, some (some P)⟩ now fX, rfl, rfl, rfl⟩

/-- Witness for C4 amended at the concrete two-user store. -/
theorem claim_C4_amended_witness :
    ∃ f2, updateFolder [⟨"x", "X", "u1", none, 0, 0⟩, ⟨"p", "P", "u2", none, 0, 0⟩] 5
        ⟨"x", none, some (some "p")⟩
        = (Except.ok f2,
           ([⟨"x", "X", "u1", none, 0, 0⟩, ⟨"p", "P", "u2", none, 0, 0⟩] : List Folder).map
             (updRow ⟨"x", none, some (some "p")⟩ 5))
      ∧ f2.parent_folder_id = some "p" ∧ f2.user_id = "u1" :=
  @claim_C4_amended [⟨"x", "X", "u1", none, 0, 0⟩, ⟨"p", "P", "u2", none, 0, 0⟩]
    5 "x" "p" none ⟨"x", "X", "u1", none, 0, 0⟩ ⟨"p", "P", "u2", none, 0, 0⟩ ["p"]
    (by decide) (by decide) (by decide) (by decide) (by decide) (by decide)

/-- C6: updateFolder has merge-patch semantics — omitted fields keep their
stored value, parent_folder_id provided as explicit null moves the folder to
root, id / user_id / created_at are never changed, updated_at is refreshed on
every successful call, and rows with other ids are untouched. -/
theorem claim_C6 {s : List Folder} {now : Nat} {inp : UpdateFolderInput}
    {f f2 : Folder} {s2 : List Folder}
    (hfind : findById s inp.id = some f)
    (h : updateFolder s now inp = (Except.ok f2, s2)) :
    (inp.name = none → f2.name = f.name) ∧
    (∀ nm, inp.name = some nm → f2.name = nm) ∧
    (inp.parent_folder_id = none → f2.parent_folder_id = f.parent_folder_id) ∧
    (inp.parent_folder_id = some none → f2.parent_folder_id = none) ∧
    (∀ p, inp.parent_folder_id = some (some p) → f2.parent_folder_id = some p) ∧
    f2.id = f.id ∧ f2.user_id = f.user_id ∧ f2.created_at = f.created_at ∧
    f2.updated_at = now ∧
    findById s2 inp.id = some f2 ∧
    (∀ g ∈ s, g.id ≠ inp.id → g ∈ s2) := by
  obtain ⟨cur, hcur, _, hf2, hs2⟩ := updateFolder_ok_elim h
  have hfe : cur = f := by
    rw [hcur] at hfind
    exact Option.some.inj hfind
  rw [hfe] at hf2 hcur
  have hfid : f.id = inp.id := (findById_mem hcur).2
  subst hf2
  subst hs2
  refine ⟨?_, ?_, ?_, ?_, ?_, rfl, rfl, rfl, rfl, ?_, ?_⟩
  · intro hn; rw [applyFolderUpdate, hn]; rfl
  · intro nm hn; rw [applyFolderUpdate, hn]; rfl
  · intro hp; rw [applyFolderUpdate, hp]; rfl
  · intro hp; rw [applyFolderUpdate, hp]; rfl
  · intro p hp; rw [applyFolderUpdate, hp]; rfl
  · rw [findById_map (fun g => by rw [updRow]; split <;> rfl), hcur]
    simp only [Option.map_some']
    rw [updRow, if_pos (by simp [hfid])]
  · intro g hg hgne
    refine List.mem_map.2 ⟨g, hg, ?_⟩
    rw [updRow, if_neg (by simpa using hgne)]

/-- Witness for C6: updating with both fields omitted keeps name and parent,
refreshes updated_at only. -/
theorem claim_C6_witness :
    ((none : Option String) = none →
      (⟨"a", "A", "u", some "r", 3, 9⟩ : Folder).name = "A") ∧
    (∀ nm, (none : Option String) = some nm → (⟨"a", "A", "u", some "r", 3, 9⟩ : Folder).name = nm) ∧
    ((none : Option (Option String)) = none →
      (⟨"a", "A", "u", some "r", 3, 9⟩ : Folder).parent_folder_id = some "r") ∧
    ((none : Option (Option String)) = some none →
      (⟨"a", "A", "u", some "r", 3, 9⟩ : Folder).parent_folder_id = none) ∧
    (∀ p, (none : Option (Option String)) = some (some p) →
      (⟨"a", "A", "u", some "r", 3, 9⟩ : Folder).parent_folder_id = some p) ∧
    (⟨"a", "A", "u", some "r", 3, 9⟩ : Folder).id = "a" ∧
    (⟨"a", "A", "u", some "r", 3, 9⟩ : Folder).user_id = "u" ∧
    (⟨"a", "A", "u", some "r", 3, 9⟩ : Folder).created_at = 3 ∧
    (⟨"a", "A", "u", some "r", 3, 9⟩ : Folder).updated_at = 9 ∧
    findById ((updateFolder [⟨"r", "R", "u", none, 0, 0⟩, ⟨"a", "A", "u", some "r", 3, 3⟩] 9
        ⟨"a", none, none⟩).2) "a" = some ⟨"a", "A", "u", some "r", 3, 9⟩ ∧
    (∀ g ∈ [(⟨"r", "R", "u", none, 0, 0⟩ : Folder), ⟨"a", "A", "u", some "r", 3, 3⟩],
      g.id ≠ "a" →
      g ∈ (updateFolder [⟨"r", "R", "u", none, 0, 0⟩, ⟨"a", "A", "u", some "r", 3, 3⟩] 9
        ⟨"a", none, none⟩).2) :=
  @claim_C6 [⟨"r", "R", "u", none, 0, 0⟩, ⟨"a", "A", "u", some "r", 3, 3⟩]
    9 ⟨"a", none, none⟩ ⟨"a", "A", "u", some "r", 3, 3⟩ ⟨"a", "A", "u", some "r", 3, 9⟩
    [⟨"r", "R", "u", none, 0, 0⟩, ⟨"a", "A", "u", some "r", 3, 9⟩]
    (by decide) rfl

/-- C9: the ancestor walk (at the fuel updateFolder gives it) terminates on
every finite store, corrupted ones included, and when the folder being
updated exists in the store the number of folder lookups it performs is at
most the total number of folders. -/
theorem claim_C9 (s : List Folder) (folderId start : String) :
    (∃ r n, ancestorWalk s folderId (s.length + 1) start [] = some (r, n)) ∧
    (folderId ∈ storeIds s →
      ∀ r n, ancestorWalk s folderId (s.length + 1) start [] = some (r, n) →
        n ≤ s.length) := by
  have hm : walkMeasure s folderId [] < s.length + 1 :=
    Nat.lt_succ_of_le (walkMeasure_nil_le s folderId)
  obtain ⟨r0, n0, hw0, hn0⟩ := @ancestorWalk_total s folderId (s.length + 1) start [] hm
  refine ⟨⟨r0, n0, hw0⟩, ?_⟩
  intro hmem r n hw
  rw [hw0] at hw
  obtain ⟨h1, h2⟩ := Prod.mk.injEq .. ▸ (Option.some.inj hw)
  have hlt := walkMeasure_nil_lt (s := s) hmem
  omega

/-- Witness for C9: a one-folder store whose single folder has a dangling
parent; the walk terminates and performs at most one lookup. -/
theorem claim_C9_witness :
    (∃ r n, ancestorWalk [⟨"a", "A", "u", some "zz", 0, 0⟩] "a" 2 "a" [] = some (r, n)) ∧
    (∀ r n, ancestorWalk [⟨"a", "A", "u", some "zz", 0, 0⟩] "a" 2 "a" [] = some (r, n) →
      n ≤ 1) := by
  have h := claim_C9 [⟨"a", "A", "u", some "zz", 0, 0⟩] "a" "a"
  exact ⟨h.1, fun r n he => h.2 (by decide) r n he⟩

/-- C5: evaluating the three writes of deleteFolder at a store with one
folder containing one note, the state after the first write alone differs
from both the initial state and the final state — the three statements are
not an atomic unit (there is no transaction around them) — although the
folder row is still present at that point. -/
theorem claim_C5 :
    deleteFolderAfterSteps [⟨"f", "F", "u", none, 0, 0⟩]
        [⟨"n", "T", "B", "u", some "f"⟩] ⟨"f", "u"⟩ 1
      ≠ deleteFolderAfterSteps [⟨"f", "F", "u", none, 0, 0⟩]
        [⟨"n", "T", "B", "u", some "f"⟩] ⟨"f", "u"⟩ 0 ∧
    deleteFolderAfterSteps [⟨"f", "F", "u", none, 0, 0⟩]
        [⟨"n", "T", "B", "u", some "f"⟩] ⟨"f", "u"⟩ 1
      ≠ deleteFolderAfterSteps [⟨"f", "F", "u", none, 0, 0⟩]
        [⟨"n", "T", "B", "u", some "f"⟩] ⟨"f", "u"⟩ 3 ∧
    (deleteFolderAfterSteps [⟨"f", "F", "u", none, 0, 0⟩]
        [⟨"n", "T", "B", "u", some "f"⟩] ⟨"f", "u"⟩ 1).2
      = [⟨"n", "T", "B", "u", none⟩] ∧
    findById (deleteFolderAfterSteps [⟨"f", "F", "u", none, 0, 0⟩]
        [⟨"n", "T", "B", "u", some "f"⟩] ⟨"f", "u"⟩ 1).1 "f"
      = some ⟨"f", "F", "u", none, 0, 0⟩ :=
  ⟨by decide, by decide, rfl, rfl⟩

/-- C3 (code divergence): the shipped createFolder — a placeholder in
handlers/create_folder.ts whose own comment says it should validate the
owner and the parent — never fails and never writes: for every input it
returns ok with a fabricated row and the folders table unchanged.  Evaluated
at the claim's failing inputs: with a nonexistent owner it does not fail with
the user-not-found error and persists nothing, and with a parent owned by a
different user it does not fail with the combined parent error and persists
nothing. -/
theorem claim_C3 :
    (∀ (s : List Folder) (inp : CreateFolderInput) (newId : String) (now : Nat),
      ∃ f2, createFolder s inp newId now = (Except.ok f2, s)) ∧
    createFolder [] ⟨"N", "ghost", none⟩ "id1" 2
      = (Except.ok ⟨"id1", "N", "ghost", none, 2, 2⟩, []) ∧
    createFolder [⟨"pf", "P", "other", none, 0, 0⟩] ⟨"N", "ghost", some "pf"⟩ "id2" 3
      = (Except.ok ⟨"id2", "N", "ghost", some "pf", 3, 3⟩,
         [⟨"pf", "P", "other", none, 0, 0⟩]) := by
  refine ⟨?_, rfl, rfl⟩
  intro s inp newId now
  exact ⟨_, rfl⟩

/-- C8 counterexample: per-user-bounded acyclicity (following parent links
from any folder reaches a root within as many steps as that folder's owner
has folders) is not preserved by a successful updateFolder: re-parenting the
single folder of user u1 under the three-folder chain of user u2 succeeds —
no ownership check — and afterwards u1's folder needs four steps although u1
owns one folder. -/
theorem claim_C8_counterexample :
    AcyclicPerUser [⟨"x", "X", "u1", none, 0, 0⟩, ⟨"a", "A", "u2", none, 0, 0⟩,
        ⟨"b", "B", "u2", some "a", 0, 0⟩, ⟨"c", "C", "u2", some "b", 0, 0⟩] ∧
    (updateFolder [⟨"x", "X", "u1", none, 0, 0⟩, ⟨"a", "A", "u2", none, 0, 0⟩,
        ⟨"b", "B", "u2", some "a", 0, 0⟩, ⟨"c", "C", "u2", some "b", 0, 0⟩] 7
        ⟨"x", none, some (some "c")⟩).1
      = Except.ok ⟨"x", "X", "u1", some "c", 0, 7⟩ ∧
    ¬ AcyclicPerUser (updateFolder [⟨"x", "X", "u1", none, 0, 0⟩, ⟨"a", "A", "u2", none, 0, 0⟩,
        ⟨"b", "B", "u2", some "a", 0, 0⟩, ⟨"c", "C", "u2", some "b", 0, 0⟩] 7
        ⟨"x", none, some (some "c")⟩).2 :=
  ⟨by decide, rfl, by decide⟩

/-- C8 amended: with the step bound taken over all folders of the store
(global acyclicity), acyclicity is an invariant of the reachable states: it
is preserved by every successful updateFolder and deleteFolder, and by every
run of the shipped createFolder — the placeholder performs no write, so the
folders table is returned unchanged — and on any acyclic store no folder is
its own parent or its own transitive ancestor. -/
theorem claim_C8_amended {s : List Folder} (hnd : (storeIds s).Nodup) (hacy : Acyclic s) :
    (∀ now inp f2 s2, updateFolder s now inp = (Except.ok f2, s2) → Acyclic s2) ∧
    (∀ notes inp s2 n2, deleteFolder s notes inp = (Except.ok (), s2, n2) → Acyclic s2) ∧
    (∀ inp newId now f2 s2,
      createFolder s inp newId now = (Except.ok f2, s2) → Acyclic s2) ∧
    (∀ g ∈ s, parentView s g.id ≠ some (some g.id)) ∧
    (∀ g ∈ s, ∀ l, chainTo s s.length g.id = some l → g.id ∉ l.tail) := by
  refine ⟨?_, ?_, ?_, ?_, ?_⟩
  · intro now inp f2 s2 h
    exact updateFolder_preserves_acyclic hacy h
  · intro notes inp s2 n2 h
    exact deleteFolder_preserves_acyclic hnd hacy h
  · intro inp newId now f2 s2 h
    have hs2 : s = s2 := congrArg Prod.snd h
    rw [← hs2]
    exact hacy
  · intro g hg hself
    have hch := hacy g hg
    rw [chainTo, chainToF_self_loop hself] at hch
    simp at hch
  · intro g hg l hl
    have hnodup := chainToF_nodup hl
    rw [chainTo] at hl
    cases hfuel : s.length with
    | zero => rw [hfuel] at hl; simp [chainToF] at hl
    | succ m =>
      rw [hfuel, chainToF] at hl
      cases hpv : parentView s g.id with
      | none => rw [hpv] at hl; exact absurd hl (by simp)
      | some par =>
        rw [hpv] at hl
        cases par with
        | none =>
          obtain rfl : [g.id] = l := Option.some.inj hl
          simp
        | some p =>
          simp only [Option.map_eq_some'] at hl
          obtain ⟨m0, _, rfl⟩ := hl
          have := List.nodup_cons.1 hnodup
          simpa using this.1

/-- Witness for C8 amended: on a concrete two-folder acyclic store, renaming
the child keeps the store acyclic. -/
theorem claim_C8_amended_witness :
    Acyclic (updateFolder [⟨"r", "R", "u", none, 0, 0⟩, ⟨"a", "A", "u", some "r", 0, 0⟩] 1
      ⟨"a", some "S", none⟩).2 := by
  have h := @claim_C8_amended
    [⟨"r", "R", "u", none, 0, 0⟩, ⟨"a", "A", "u", some "r", 0, 0⟩]
    (by decide) (by decide)
  exact h.1 1 ⟨"a", some "S", none⟩ ⟨"a", "S", "u", some "r", 0, 1⟩
    [⟨"r", "R", "u", none, 0, 0⟩, ⟨"a", "S", "u", some "r", 0, 1⟩] rfl

end ZeNotes
